import Mathlib

/-!
Shallow embedding of the greenearth-social candidate-generation service
(`src/app`): the blending orchestrator of `routers/candidates.py`, the vector
codec of `lib/embeddings.py`, and the two candidate generators
(`lib/candidates/popularity.py`, `lib/candidates/post_similarity.py`).

Modelling conventions:
* Python `float` arithmetic (weights, proportional shares, averages) is
  modelled with exact rationals `ℚ`; the algorithmic content of the claims
  (apportionment, dedup, control flow) does not depend on rounding.
* IEEE-754 float32 values are modelled by their 32-bit patterns (`ℕ < 2^32`);
  "equal to float32 precision" is bit-pattern equality after packing.
* Elasticsearch is an oracle `Es : EsCall → List Hit`; every `es.search`
  invocation a function performs is also recorded in a returned trace, so
  that claims about which backend calls happen are statable.
* Fallible Python code (`raise`) is modelled with `Except`/`Option`.
-/

namespace GreenEarth

/-- JSON values, used to embed the Elasticsearch query dictionaries that the
Python code builds literally. -/
inductive Json where
  | str : String → Json
  | num : ℚ → Json
  | jbool : Bool → Json
  | arr : List Json → Json
  | obj : List (String × Json) → Json
deriving Repr

/-- `app.models.CandidatePost`: the post record used by the router and the
popularity generator.  All four fields are optional in the pydantic model. -/
structure CandidatePost where
  at_uri : Option String := none
  content : Option String := none
  minilm_l12_embedding : Option String := none
  score : Option ℚ := none
deriving Repr, DecidableEq

/-- `app.lib.candidates.base.GeneratorSpec` is declared in
`routers/candidates.py`: a generator name plus a positive relative weight
(pydantic validates `weight > 0`; the default is `1.0`). -/
structure GeneratorSpec where
  name : String
  weight : ℚ := 1
deriving Repr, DecidableEq

instance : Inhabited GeneratorSpec := ⟨{ name := "" }⟩

/-! ## Allocation (`routers/candidates.py`, `_allocate_counts`)

The Python helper computes `raw_i = weight_i / weight_sum * total`, floors
each share, and hands the leftover units one by one to the indices sorted by
descending fractional remainder.  Python's `sorted` is stable, so ties are
broken by the original spec order; over the duplicate-free index list
`range k`, a stable sort by the key `-remainders[i]` produces exactly the
sort by the strict lexicographic order (remainder descending, index
ascending), which is the comparator used here. -/

/-- `floors[idx] += 1` for one index: Python list mutation, out-of-range
indices untouched (the code never produces one). -/
def incrAt : List ℤ → ℕ → List ℤ
  | [], _ => []
  | x :: xs, 0 => (x + 1) :: xs
  | x :: xs, n + 1 => x :: incrAt xs n

/-- The `for idx in sorted(...)` loop of `_allocate_counts`: walk the sorted
index list, stopping as soon as `leftover <= 0`, giving one extra unit to
each visited index. -/
def awardLoop (floors : List ℤ) (order : List ℕ) (leftover : ℤ) : List ℤ :=
  match order with
  | [] => floors
  | idx :: rest =>
    if leftover ≤ 0 then floors
    else awardLoop (incrAt floors idx) rest (leftover - 1)

/-- The comparator of the leftover-award sort: descending remainder with
ties broken by ascending original index (see the section comment). -/
def allocRel (remainders : List ℚ) (i j : ℕ) : Prop :=
  remainders.getD j 0 < remainders.getD i 0 ∨
    (remainders.getD i 0 = remainders.getD j 0 ∧ i ≤ j)

instance (remainders : List ℚ) : DecidableRel (allocRel remainders) := fun _ _ =>
  inferInstanceAs (Decidable (_ ∨ _))

instance (remainders : List ℚ) : IsTotal ℕ (allocRel remainders) where
  total a b := by
    rcases lt_trichotomy (remainders.getD a 0) (remainders.getD b 0) with h | h | h
    · exact Or.inr (Or.inl h)
    · rcases Nat.le_total a b with hab | hab
      · exact Or.inl (Or.inr ⟨h, hab⟩)
      · exact Or.inr (Or.inr ⟨h.symm, hab⟩)
    · exact Or.inl (Or.inl h)

instance (remainders : List ℚ) : IsTrans ℕ (allocRel remainders) where
  trans a b c hab hbc := by
    rcases hab with hab | ⟨hab, hab'⟩ <;> rcases hbc with hbc | ⟨hbc, hbc'⟩
    · exact Or.inl (hbc.trans hab)
    · exact Or.inl (hbc ▸ hab)
    · exact Or.inl (hab ▸ hbc)
    · exact Or.inr ⟨hab.trans hbc, hab'.trans hbc'⟩

/-- `_allocate_counts(specs, total)`: largest-remainder (Hamilton)
apportionment of `total` across the specs, proportionally to their weights.
(`allocRel` is a strict linear order on the duplicate-free index list, so any
correct sort — here insertion sort — produces the same ordering as the
Python `sorted` call.) -/
def allocate_counts (specs : List GeneratorSpec) (total : ℕ) : List ℤ :=
  let weight_sum : ℚ := (specs.map (·.weight)).sum
  let raw : List ℚ := specs.map (fun s => s.weight / weight_sum * total)
  let floors : List ℤ := raw.map (fun r => ⌊r⌋)
  let remainders : List ℚ := (raw.zip floors).map (fun p => p.1 - (p.2 : ℚ))
  let leftover : ℤ := (total : ℤ) - floors.sum
  let order : List ℕ :=
    List.insertionSort (allocRel remainders) (List.range specs.length)
  awardLoop floors order leftover

/-- The `raw` list of `_allocate_counts`: the exact proportional shares. -/
def rawShares (specs : List GeneratorSpec) (total : ℕ) : List ℚ :=
  specs.map (fun s => s.weight / (specs.map (·.weight)).sum * total)

/-- The `floors` list of `_allocate_counts`. -/
def floorShares (specs : List GeneratorSpec) (total : ℕ) : List ℤ :=
  (rawShares specs total).map (fun r => ⌊r⌋)

/-- The `remainders` list of `_allocate_counts`. -/
def fracShares (specs : List GeneratorSpec) (total : ℕ) : List ℚ :=
  ((rawShares specs total).zip (floorShares specs total)).map
    (fun p => p.1 - (p.2 : ℚ))

/-- The `leftover` value of `_allocate_counts`. -/
def leftoverOf (specs : List GeneratorSpec) (total : ℕ) : ℤ :=
  (total : ℤ) - (floorShares specs total).sum

/-- The sorted index list of `_allocate_counts`. -/
def awardOrder (specs : List GeneratorSpec) (total : ℕ) : List ℕ :=
  List.insertionSort (allocRel (fracShares specs total))
    (List.range specs.length)

/-! ## Deduplication (`routers/candidates.py`, `_dedup_candidates`) -/

/-- The loop body of `_dedup_candidates`: `seen` is the set of identity keys
already emitted (a Python `set`, modelled as a list with membership). -/
def dedupGo (seen : List (Option String)) : List CandidatePost → List CandidatePost
  | [] => []
  | c :: cs =>
    if c.at_uri ∈ seen then dedupGo seen cs
    else c :: dedupGo (c.at_uri :: seen) cs

/-- `_dedup_candidates(candidates)`: drop every candidate whose `at_uri` was
already seen (including `None`), keeping first occurrences in order. -/
def dedup_candidates (candidates : List CandidatePost) : List CandidatePost :=
  dedupGo [] candidates

/-! ## Blending orchestrator (`routers/candidates.py`, `candidates_generate`)

The endpoint allocates counts, resolves and invokes each positive-count
generator in spec order, concatenates and dedups, optionally infills, and
truncates to `num_candidates`.  A generator instance is modelled by its
`generate` operation (a pure oracle from user, count and `video_only` to a
candidate list), the registry by `reg : String → Option Gen`
(`base.get_generator`), and an `HTTPException` by its status and detail.
Every registry lookup and generator invocation is recorded in an event
trace so that claims about which generators run are statable. -/

/-- A registered generator instance: its `generate(es, user_did,
num_candidates, video_only)` operation with the backend already applied. -/
structure Gen where
  run : String → ℤ → Bool → List CandidatePost

/-- `CandidateGenerateRequest` (pydantic): validation enforces at least one
spec, each weight positive, and `1 ≤ num_candidates ≤ 1000`; those bounds
appear as hypotheses on the theorems that need them. -/
structure CandidateGenerateRequest where
  generators : List GeneratorSpec
  user_did : String
  num_candidates : ℕ := 100
  video_only : Bool := false
  infill : Option String := none

/-- An observable action of the endpoint: a registry lookup
(`get_generator(name)`) or a generator invocation
(`gen.generate(..., num_candidates=count, video_only=vo)`). -/
inductive Ev where
  | lookup : String → Ev
  | invoke : String → ℤ → Bool → Ev
deriving Repr, DecidableEq

/-- The generator name an event refers to. -/
def evName : Ev → String
  | .lookup n => n
  | .invoke n _ _ => n

/-- An `HTTPException(status_code, detail)`. -/
structure HttpError where
  status : ℕ
  detail : String
deriving Repr, DecidableEq

/-- The `for spec, count in zip(...)` loop of `candidates_generate`:
skip non-positive counts, look up each remaining name (404 aborts), invoke
the generator and accumulate its candidates. -/
def genLoop (reg : String → Option Gen) (user : String) (vo : Bool) :
    List (GeneratorSpec × ℤ) → List CandidatePost → List Ev →
    Except HttpError (List CandidatePost) × List Ev
  | [], acc, tr => (.ok acc, tr)
  | (spec, count) :: rest, acc, tr =>
    if count ≤ 0 then genLoop reg user vo rest acc tr
    else
      match reg spec.name with
      | none => (.error ⟨404, "Unknown generator: " ++ spec.name⟩,
                 tr ++ [.lookup spec.name])
      | some g => genLoop reg user vo rest (acc ++ g.run user count vo)
                    (tr ++ [.lookup spec.name, .invoke spec.name count vo])

/-- `candidates_generate(request, payload)`: the full endpoint body
(allocation → generator loop → dedup → optional infill → truncation),
returning the response or the `HTTPException`, together with the trace of
registry lookups and generator invocations. -/
def candidates_generate (reg : String → Option Gen)
    (payload : CandidateGenerateRequest) :
    Except HttpError (List CandidatePost) × List Ev :=
  let counts := allocate_counts payload.generators payload.num_candidates
  match genLoop reg payload.user_did payload.video_only
      (payload.generators.zip counts) [] [] with
  | (.error e, tr) => (.error e, tr)
  | (.ok all_candidates, tr) =>
    let deduped := dedup_candidates all_candidates
    let shortfall : ℤ := (payload.num_candidates : ℤ) - deduped.length
    match payload.infill with
    | some nm =>
      if 0 < shortfall then
        match reg nm with
        | none => (.error ⟨404, "Unknown infill generator: " ++ nm⟩,
                   tr ++ [.lookup nm])
        | some g =>
          let infill_result := g.run payload.user_did (shortfall * 2)
            payload.video_only
          let deduped2 := dedup_candidates (deduped ++ infill_result)
          (.ok (deduped2.take payload.num_candidates),
           tr ++ [.lookup nm, .invoke nm (shortfall * 2) payload.video_only])
      else (.ok (deduped.take payload.num_candidates), tr)
    | none => (.ok (deduped.take payload.num_candidates), tr)

/-! ## Vector codec (`lib/embeddings.py`)

`encode_float32_b64` packs each float as 4 little-endian IEEE-754 float32
bytes (`struct.pack("<{n}f", ...)`) and base64-encodes the concatenation;
`decode_float32_b64` inverts it, raising `ValueError` when the decoded byte
length is not a multiple of 4.  A float32 value is modelled by its 32-bit
pattern (a `ℕ < 2^32`); bytes are `ℕ < 256`.  `base64.b64decode` is modelled
on well-formed inputs: padding is accepted only at the end, and a character
outside the alphabet yields an error (Python instead raises `binascii.Error`
on bad padding and silently discards other foreign characters; the inputs
the claims quantify over are encoder outputs, which contain neither). -/

/-- The base64 alphabet, index `0–63`. -/
def b64chars : List Char :=
  "ABCDEFGHIJKLMNOPQRSTUVWXYZabcdefghijklmnopqrstuvwxyz0123456789+/".toList

/-- Value `→` base64 character. -/
def b64char (n : ℕ) : Char := b64chars.getD n '?'

/-- Base64 character `→` value; `none` for foreign characters (incl. `=`). -/
def b64val (c : Char) : Option ℕ :=
  let i := b64chars.indexOf c
  if i < 64 then some i else none

/-- `base64.b64encode`: 3 input bytes become 4 output characters; a final
group of 1 or 2 bytes is padded with `==` or `=`. -/
def b64encodeBytes : List ℕ → List Char
  | [] => []
  | [b1] => [b64char (b1 / 4), b64char (b1 % 4 * 16), '=', '=']
  | [b1, b2] =>
    [b64char (b1 / 4), b64char (b1 % 4 * 16 + b2 / 16), b64char (b2 % 16 * 4), '=']
  | b1 :: b2 :: b3 :: rest =>
    b64char (b1 / 4) :: b64char (b1 % 4 * 16 + b2 / 16) ::
      b64char (b2 % 16 * 4 + b3 / 64) :: b64char (b3 % 64) :: b64encodeBytes rest

/-- `base64.b64decode` on well-formed input: groups of 4 characters, with
`=`-padding allowed only in the final group. -/
def b64decodeBytes : List Char → Option (List ℕ)
  | [] => some []
  | c1 :: c2 :: c3 :: c4 :: rest =>
    if rest = [] ∧ c3 = '=' ∧ c4 = '=' then
      match b64val c1, b64val c2 with
      | some v1, some v2 => some [v1 * 4 + v2 / 16]
      | _, _ => none
    else if rest = [] ∧ c4 = '=' then
      match b64val c1, b64val c2, b64val c3 with
      | some v1, some v2, some v3 =>
        some [v1 * 4 + v2 / 16, v2 % 16 * 16 + v3 / 4]
      | _, _, _ => none
    else
      match b64val c1, b64val c2, b64val c3, b64val c4,
          b64decodeBytes rest with
      | some v1, some v2, some v3, some v4, some bs =>
        some ((v1 * 4 + v2 / 16) :: (v2 % 16 * 16 + v3 / 4) :: (v3 % 4 * 64 + v4) :: bs)
      | _, _, _, _, _ => none
  | _ => none

/-- `struct.pack("<f", ...)` for one float32 bit pattern: the 4 bytes in
little-endian order. -/
def wordToBytesLE (w : ℕ) : List ℕ :=
  [w % 256, w / 256 % 256, w / 256 ^ 2 % 256, w / 256 ^ 3 % 256]

/-- `struct.unpack("<f", ...)` for one group of 4 little-endian bytes. -/
def bytesToWordLE (b0 b1 b2 b3 : ℕ) : ℕ :=
  b0 + 256 * b1 + 256 ^ 2 * b2 + 256 ^ 3 * b3

/-- Regroup a byte list into 4-byte little-endian float32 words;
`none` when the length is not a multiple of 4. -/
def bytesToWords : List ℕ → Option (List ℕ)
  | [] => some []
  | b0 :: b1 :: b2 :: b3 :: rest =>
    (bytesToWords rest).map (bytesToWordLE b0 b1 b2 b3 :: ·)
  | _ => none

/-- `encode_float32_b64(vec)`: pack little-endian float32 bytes, base64. -/
def encode_float32_b64 (vec : List ℕ) : String :=
  String.mk (b64encodeBytes (vec.flatMap wordToBytesLE))

/-- `decode_float32_b64(b64)`: base64-decode (a failure there models
`binascii.Error`), require a multiple-of-4 byte length (else the
`ValueError("invalid float32 byte length")`), unpack words. -/
def decode_float32_b64 (b64 : String) : Except String (List ℕ) :=
  match b64decodeBytes b64.toList with
  | none => .error "binascii.Error"
  | some raw =>
    if raw.length % 4 ≠ 0 then .error "invalid float32 byte length"
    else
      match bytesToWords raw with
      | some words => .ok words
      | none => .error "invalid float32 byte length"

/-! ## Search backend model

`es.search(index=..., query=..., size=..., sort=..., _source=...)` is the
single backend operation.  A call is a record of its arguments; the backend
is an oracle mapping a call to the hit list of its response (the
`data["hits"]["hits"]` unwrapping of `unwrap_es_response` is absorbed into
the oracle).  Hits and `_source` records are given the typed shapes the
generators consume (spec §6); float values are `ℚ`. -/

/-- The `embeddings` object of a post `_source` record. -/
structure EmbObj where
  all_MiniLM_L12_v2 : Option (List ℚ) := none
deriving Repr, DecidableEq

/-- A `_source` record: union of the fields the generators read from
liked-item and content-item records. -/
structure SrcDoc where
  subject_uri : Option String := none
  at_uri : Option String := none
  content : Option String := none
  embeddings : Option EmbObj := none
deriving Repr, DecidableEq

/-- One search hit: optional `_score` and optional `_source`. -/
structure Hit where
  score : Option ℚ := none
  src : Option SrcDoc := none
deriving Repr, DecidableEq

/-- The arguments of one `es.search` call (`_source` is `sourceFields`). -/
structure EsCall where
  index : String
  query : Json
  size : ℤ
  sort : Option Json := none
  sourceFields : Option (List String) := none

/-- The search backend as an oracle over calls. -/
def Es : Type := EsCall → List Hit

/-! ## Similarity generator (`lib/candidates/post_similarity.py`)

`encode_float32_b64` is imported there to encode result embeddings; since
pipeline floats are modelled as `ℚ` (not bit patterns), the imported encoder
is a parameter `enc : List ℚ → String` of the functions that call it. -/

/-- `DEFAULT_LIKED_POSTS_LIMIT` — how many recent likes feed the taste
vector. -/
def DEFAULT_LIKED_POSTS_LIMIT : ℕ := 50

/-- The `likes`-index query of `fetch_recent_liked_post_uris`. -/
def likesQuery (user_did : String) : Json :=
  .obj [("bool", .obj [("filter",
    .arr [.obj [("term", .obj [("author_did", .str user_did)])]])])]

/-- The full `es.search` call of `fetch_recent_liked_post_uris`. -/
def likesCall (user_did : String) (limit : ℕ) : EsCall :=
  { index := "likes", query := likesQuery user_did, size := limit,
    sort := some (.arr [.obj [("created_at", .str "desc")]]),
    sourceFields := some ["subject_uri"] }

/-- `fetch_recent_liked_post_uris(es, user_did, limit)`: extract the
`subject_uri` of each hit, skipping missing and empty (falsy) values. -/
def fetch_recent_liked_post_uris (es : Es) (user_did : String)
    (limit : ℕ := DEFAULT_LIKED_POSTS_LIMIT) : List String :=
  (es (likesCall user_did limit)).filterMap fun hit =>
    match (hit.src.getD {}).subject_uri with
    | some uri => if uri = "" then none else some uri
    | none => none

/-- The `posts`-index terms query of `fetch_post_embeddings`. -/
def termsQuery (at_uris : List String) : Json :=
  .obj [("terms", .obj [("at_uri", .arr (at_uris.map .str))])]

/-- The full `es.search` call of `fetch_post_embeddings`. -/
def embCall (at_uris : List String) : EsCall :=
  { index := "posts", query := termsQuery at_uris, size := at_uris.length,
    sourceFields := some ["embeddings.all_MiniLM_L12_v2"] }

/-- `fetch_post_embeddings(es, at_uris)`: no call at all on an empty input;
otherwise collect each hit's `embeddings.all_MiniLM_L12_v2` vector, skipping
hits where the `embeddings` object or the vector is missing or the vector is
empty (falsy). -/
def fetch_post_embeddings (es : Es) (at_uris : List String) : List (List ℚ) :=
  if at_uris = [] then []
  else
    (es (embCall at_uris)).filterMap fun hit =>
      match (hit.src.getD {}).embeddings with
      | some emb =>
        match emb.all_MiniLM_L12_v2 with
        | some vec => if vec = [] then none else some vec
        | none => none
      | none => none

/-- Python exceptions raised inside the similarity pipeline. -/
inductive PyErr where
  /-- `ValueError("No vectors to average")` in `average_vectors`. -/
  | valueErrorNoVectors
  /-- `IndexError` from `avg[i] += val` when a vector is longer than the
  first one. -/
  | indexError
deriving Repr, DecidableEq

/-- One pass of the accumulation loop of `average_vectors`: `avg[i] += v[i]`
for each position of `v`; `IndexError` when `v` is longer than `avg`. -/
def addInto (avg v : List ℚ) : Except PyErr (List ℚ) :=
  if v.length ≤ avg.length then
    .ok (avg.zipWith (· + ·) v ++ avg.drop v.length)
  else .error .indexError

/-- `average_vectors(vectors)`: element-wise arithmetic mean; raises on an
empty input. -/
def average_vectors (vectors : List (List ℚ)) : Except PyErr (List ℚ) :=
  if vectors = [] then .error .valueErrorNoVectors
  else
    match vectors.foldlM addInto
        (List.replicate (vectors.headD []).length (0 : ℚ)) with
    | .error e => .error e
    | .ok avg => .ok (avg.map (fun x => x / (vectors.length : ℚ)))

/-- `base.Candidate`: the candidate record produced by the similarity
generator (same four optional fields as `CandidatePost`). -/
structure Candidate where
  at_uri : Option String := none
  content : Option String := none
  minilm_l12_embedding : Option String := none
  score : Option ℚ := none
deriving Repr, DecidableEq

/-- `base.CandidateResult`: generator name plus its candidates. -/
structure CandidateResult where
  generator_name : String
  candidates : List Candidate := []
deriving Repr, DecidableEq

/-- The kNN query dict of `knn_search_posts`.  Note: the function has no
`video_only` parameter; the `contains_video` filter is built
unconditionally. -/
def knnQuery (query_vector : List ℚ) (num_candidates : ℤ) : Json :=
  .obj [("bool", .obj [
    ("must", .obj [("knn", .obj [
      ("field", .str "embeddings.all_MiniLM_L12_v2"),
      ("query_vector", .arr (query_vector.map .num)),
      ("k", .num num_candidates),
      ("num_candidates", .num (max 100 (num_candidates * 10)))])]),
    ("filter", .arr [.obj [("term", .obj [("contains_video", .jbool true)])]])])]

/-- The full `es.search` call of `knn_search_posts`. -/
def knnCall (query_vector : List ℚ) (num_candidates : ℤ) : EsCall :=
  { index := "posts", query := knnQuery query_vector num_candidates,
    size := num_candidates }

/-- `knn_search_posts(es, query_vector, num_candidates)`: run the kNN call
and convert each hit to a `Candidate` (embedding re-encoded with
`encode_float32_b64 = enc` when present). -/
def knn_search_posts (es : Es) (enc : List ℚ → String) (query_vector : List ℚ)
    (num_candidates : ℤ) : List Candidate :=
  (es (knnCall query_vector num_candidates)).map fun hit =>
    let src := hit.src.getD {}
    let l12 := (src.embeddings.getD {}).all_MiniLM_L12_v2
    { at_uri := src.at_uri, content := src.content,
      minilm_l12_embedding := l12.map enc, score := hit.score }

/-- `PostSimilarityCandidateGenerator.generate(es, user_did,
num_candidates)` (the class accepts no `video_only` argument): likes →
embeddings → average → kNN, with the early empty returns of steps 1 and 2.
Besides the result (or propagated exception) it returns the list of
`es.search` calls performed, in order. -/
def post_similarity_generate (es : Es) (enc : List ℚ → String)
    (user_did : String) (num_candidates : ℤ) :
    Except PyErr CandidateResult × List EsCall :=
  let lc := likesCall user_did DEFAULT_LIKED_POSTS_LIMIT
  let liked_uris := fetch_recent_liked_post_uris es user_did
  if liked_uris = [] then
    (.ok { generator_name := "post_similarity", candidates := [] }, [lc])
  else
    let ec := embCall liked_uris
    let vectors := fetch_post_embeddings es liked_uris
    if vectors = [] then
      (.ok { generator_name := "post_similarity", candidates := [] }, [lc, ec])
    else
      match average_vectors vectors with
      | .error e => (.error e, [lc, ec])
      | .ok avg_vector =>
        (.ok { generator_name := "post_similarity",
               candidates := knn_search_posts es enc avg_vector num_candidates },
         [lc, ec, knnCall avg_vector num_candidates])

/-! ## Popularity generator (`lib/candidates/popularity.py`) -/

/-- `RECENCY_WINDOW`: trailing window of considered posts. -/
def RECENCY_WINDOW : String := "24h"

/-- `DECAY_SCALE`: gaussian decay scale. -/
def DECAY_SCALE : String := "6h"

/-- `DECAY_OFFSET`: grace window treated as equally new. -/
def DECAY_OFFSET : String := "1h"

/-- `DECAY_FACTOR`: decay value at `scale` distance. -/
def DECAY_FACTOR : ℚ := 1 / 2

/-- `LIKE_FACTOR`: like-count boost factor. -/
def LIKE_FACTOR : ℚ := 3 / 2

/-- `LIKE_MODIFIER`: sub-linear like-count modifier. -/
def LIKE_MODIFIER : String := "log1p"

/-- `LIKE_MISSING`: value used when `like_count` is missing. -/
def LIKE_MISSING : ℚ := 0

/-- The `function_score` query dict of `popularity_search`; the
`contains_video` filter is included exactly when `video_only` is true. -/
def popularityQuery (video_only : Bool) : Json :=
  .obj [("function_score", .obj [
    ("query", .obj [("bool", .obj [("filter", .arr (
      (if video_only then
        [Json.obj [("term", .obj [("contains_video", .jbool true)])]]
       else []) ++
      [Json.obj [("range", .obj [("created_at",
        .obj [("gte", .str ("now-" ++ RECENCY_WINDOW))])])]]))])]),
    ("functions", .arr [
      .obj [("gauss", .obj [("created_at", .obj [
        ("origin", .str "now"), ("scale", .str DECAY_SCALE),
        ("offset", .str DECAY_OFFSET), ("decay", .num DECAY_FACTOR)])])],
      .obj [("field_value_factor", .obj [
        ("field", .str "like_count"), ("factor", .num LIKE_FACTOR),
        ("modifier", .str LIKE_MODIFIER), ("missing", .num LIKE_MISSING)])]]),
    ("score_mode", .str "multiply"),
    ("boost_mode", .str "multiply")])]

/-- The full `es.search` call of `popularity_search`. -/
def popularityCall (video_only : Bool) (num_candidates : ℤ) : EsCall :=
  { index := "posts", query := popularityQuery video_only,
    size := num_candidates }

/-- `popularity_search(es, num_candidates, generator_name, video_only)`:
run the function-score query and convert each hit to a `CandidatePost`.
`models.CandidatePost` declares no `generator_name` field, so the
`generator_name=...` keyword passed by the Python code is ignored by
pydantic and does not appear in the record. -/
def popularity_search (es : Es) (enc : List ℚ → String) (num_candidates : ℤ)
    (generator_name : Option String) (video_only : Bool) :
    List CandidatePost :=
  let _ := generator_name
  (es (popularityCall video_only num_candidates)).map fun hit =>
    let src := hit.src.getD {}
    let l12 := (src.embeddings.getD {}).all_MiniLM_L12_v2
    { at_uri := src.at_uri, content := src.content,
      minilm_l12_embedding := l12.map enc, score := hit.score }

/-- The popularity generator's result (its candidates are
`CandidatePost`s). -/
structure PopularityResult where
  generator_name : String
  candidates : List CandidatePost := []
deriving Repr, DecidableEq

/-- `PopularityCandidateGenerator.generate(es, user_did, num_candidates,
video_only)`: delegates to `popularity_search`; `user_did` is accepted but
unused.  Also returns the `es.search` calls performed. -/
def popularity_generate (es : Es) (enc : List ℚ → String) (user_did : String)
    (num_candidates : ℤ) (video_only : Bool) :
    PopularityResult × List EsCall :=
  let _ := user_did
  ({ generator_name := "popularity",
     candidates :=
       popularity_search es enc num_candidates (some "popularity")
         video_only },
   [popularityCall video_only num_candidates])

/-! ### Dedup lemmas -/

theorem dedupGo_sublist (seen : List (Option String)) :
    ∀ l : List CandidatePost, (dedupGo seen l).Sublist l := by
  intro l
  induction l generalizing seen with
  | nil => simp [dedupGo]
  | cons c cs ih =>
    rw [dedupGo]
    split
    · exact (ih seen).cons c
    · exact (ih (c.at_uri :: seen)).cons₂ c

theorem dedupGo_not_seen (seen : List (Option String)) (l : List CandidatePost)
    (d : CandidatePost) (hd : d ∈ dedupGo seen l) : d.at_uri ∉ seen := by
  induction l generalizing seen with
  | nil => simp [dedupGo] at hd
  | cons c cs ih =>
    rw [dedupGo] at hd
    split at hd
    · exact ih seen hd
    · rcases List.mem_cons.mp hd with hd | hd
      · subst hd; assumption
      · have := ih _ hd
        intro hmem
        exact this (List.mem_cons_of_mem _ hmem)

theorem dedupGo_pairwise (seen : List (Option String)) (l : List CandidatePost) :
    (dedupGo seen l).Pairwise (fun a b => a.at_uri ≠ b.at_uri) := by
  induction l generalizing seen with
  | nil => simp [dedupGo]
  | cons c cs ih =>
    rw [dedupGo]
    split
    · exact ih seen
    · refine List.Pairwise.cons (fun d hd => ?_) (ih (c.at_uri :: seen))
      have := dedupGo_not_seen _ _ _ hd
      intro heq
      exact this (heq ▸ List.mem_cons_self _ _)

theorem dedupGo_complete (seen : List (Option String)) (l : List CandidatePost)
    (c : CandidatePost) (hc : c ∈ l) (hseen : c.at_uri ∉ seen) :
    ∃ d ∈ dedupGo seen l, d.at_uri = c.at_uri := by
  induction l generalizing seen with
  | nil => simp at hc
  | cons a as ih =>
    rw [dedupGo]
    rcases List.mem_cons.mp hc with hc | hc
    · subst hc
      rw [if_neg hseen]
      exact ⟨c, List.mem_cons_self _ _, rfl⟩
    · split
      · exact ih seen hc hseen
      · by_cases huri : c.at_uri = a.at_uri
        · exact ⟨a, List.mem_cons_self _ _, huri.symm⟩
        · have hseen' : c.at_uri ∉ a.at_uri :: seen := by
            intro h
            rcases List.mem_cons.mp h with h | h
            · exact huri h
            · exact hseen h
          obtain ⟨d, hd, hde⟩ := ih (a.at_uri :: seen) hc hseen'
          exact ⟨d, List.mem_cons_of_mem _ hd, hde⟩

theorem dedupGo_first (seen : List (Option String)) (l : List CandidatePost)
    (d : CandidatePost) (hd : d ∈ dedupGo seen l) :
    ∃ pre post, l = pre ++ d :: post ∧ ∀ p ∈ pre, p.at_uri ≠ d.at_uri := by
  induction l generalizing seen with
  | nil => simp [dedupGo] at hd
  | cons c cs ih =>
    rw [dedupGo] at hd
    split at hd
    · rename_i hcseen
      obtain ⟨pre, post, heq, hpre⟩ := ih seen hd
      refine ⟨c :: pre, post, by simp [heq], fun p hp => ?_⟩
      rcases List.mem_cons.mp hp with hp | hp
      · subst hp
        have hdns := dedupGo_not_seen _ _ _ hd
        intro hcon
        exact hdns (hcon ▸ hcseen)
      · exact hpre p hp
    · rcases List.mem_cons.mp hd with hd | hd
      · subst hd
        exact ⟨[], cs, rfl, by simp⟩
      · obtain ⟨pre, post, heq, hpre⟩ := ih (c.at_uri :: seen) hd
        refine ⟨c :: pre, post, by simp [heq], fun p hp => ?_⟩
        rcases List.mem_cons.mp hp with hp | hp
        · subst hp
          have hdns := dedupGo_not_seen _ _ _ hd
          intro hcon
          exact hdns (hcon ▸ List.mem_cons_self _ _)
        · exact hpre p hp

/-- Claim C2: `_dedup_candidates` keeps exactly the first occurrence of each
`at_uri` value (null included) in original order: the output is an ordered
sublist of the input, no two output entries share an identity key — in
particular at most one identity-less (`at_uri = none`) candidate survives,
namely the first — every input key is represented in the output, and every
kept candidate is the first occurrence of its key in the input. -/
theorem dedup_candidates_spec (l : List CandidatePost) :
    (dedup_candidates l).Sublist l ∧
    (dedup_candidates l).Pairwise (fun a b => a.at_uri ≠ b.at_uri) ∧
    (∀ c ∈ l, ∃ d ∈ dedup_candidates l, d.at_uri = c.at_uri) ∧
    (∀ d ∈ dedup_candidates l,
      ∃ pre post, l = pre ++ d :: post ∧ ∀ p ∈ pre, p.at_uri ≠ d.at_uri) :=
  ⟨dedupGo_sublist [] l, dedupGo_pairwise [] l,
   fun c hc => dedupGo_complete [] l c hc (by simp),
   fun d hd => dedupGo_first [] l d hd⟩

/-! ### Allocation lemmas -/

theorem incrAt_length (l : List ℤ) (i : ℕ) : (incrAt l i).length = l.length := by
  induction l generalizing i with
  | nil => rfl
  | cons x xs ih =>
    cases i with
    | zero => rfl
    | succ n => simp [incrAt, ih]

theorem incrAt_getD_self (l : List ℤ) (i : ℕ) (h : i < l.length) :
    (incrAt l i).getD i 0 = l.getD i 0 + 1 := by
  induction l generalizing i with
  | nil => simp at h
  | cons x xs ih =>
    cases i with
    | zero => simp [incrAt]
    | succ n =>
      simp only [incrAt, List.getD_cons_succ]
      exact ih n (by simpa using h)

theorem incrAt_getD_ne (l : List ℤ) (i j : ℕ) (h : i ≠ j) :
    (incrAt l i).getD j 0 = l.getD j 0 := by
  induction l generalizing i j with
  | nil => rfl
  | cons x xs ih =>
    cases i with
    | zero =>
      cases j with
      | zero => exact absurd rfl h
      | succ m => simp [incrAt]
    | succ n =>
      cases j with
      | zero => simp [incrAt]
      | succ m =>
        simp only [incrAt, List.getD_cons_succ]
        exact ih n m (by omega)

theorem incrAt_sum (l : List ℤ) (i : ℕ) (h : i < l.length) :
    (incrAt l i).sum = l.sum + 1 := by
  induction l generalizing i with
  | nil => simp at h
  | cons x xs ih =>
    cases i with
    | zero => simp [incrAt]; ring
    | succ n =>
      simp only [incrAt, List.sum_cons]
      rw [ih n (by simpa using h)]
      ring

theorem foldl_incrAt_length (idxs : List ℕ) (floors : List ℤ) :
    (idxs.foldl incrAt floors).length = floors.length := by
  induction idxs generalizing floors with
  | nil => rfl
  | cons a rest ih => simp [List.foldl_cons, ih, incrAt_length]

theorem foldl_incrAt_getD (idxs : List ℕ) (floors : List ℤ) (j : ℕ)
    (hnd : idxs.Nodup) (hlt : ∀ i ∈ idxs, i < floors.length) :
    (idxs.foldl incrAt floors).getD j 0 =
      floors.getD j 0 + (if j ∈ idxs then 1 else 0) := by
  induction idxs generalizing floors with
  | nil => simp
  | cons a rest ih =>
    simp only [List.foldl_cons]
    have hnd' := hnd.of_cons
    have hlt' : ∀ i ∈ rest, i < (incrAt floors a).length := by
      intro i hi; rw [incrAt_length]; exact hlt i (List.mem_cons_of_mem _ hi)
    rw [ih (incrAt floors a) hnd' hlt']
    by_cases hj : j = a
    · subst hj
      have hja : j ∉ rest := (List.nodup_cons.mp hnd).1
      rw [incrAt_getD_self _ _ (hlt j (List.mem_cons_self _ _))]
      simp [hja]
    · rw [incrAt_getD_ne _ _ _ (fun h => hj h.symm)]
      simp [List.mem_cons, hj]

theorem foldl_incrAt_sum (idxs : List ℕ) (floors : List ℤ)
    (hlt : ∀ i ∈ idxs, i < floors.length) :
    (idxs.foldl incrAt floors).sum = floors.sum + idxs.length := by
  induction idxs generalizing floors with
  | nil => simp
  | cons a rest ih =>
    simp only [List.foldl_cons]
    have hlt' : ∀ i ∈ rest, i < (incrAt floors a).length := by
      intro i hi; rw [incrAt_length]; exact hlt i (List.mem_cons_of_mem _ hi)
    rw [ih (incrAt floors a) hlt',
      incrAt_sum _ _ (hlt a (List.mem_cons_self _ _))]
    simp only [List.length_cons]
    push_cast
    ring

theorem awardLoop_eq_foldl (order : List ℕ) (floors : List ℤ) (leftover : ℤ)
    (h : 0 ≤ leftover) :
    awardLoop floors order leftover =
      (order.take leftover.toNat).foldl incrAt floors := by
  induction order generalizing floors leftover with
  | nil => simp [awardLoop]
  | cons idx rest ih =>
    rw [awardLoop]
    by_cases hle : leftover ≤ 0
    · have : leftover.toNat = 0 := by omega
      simp [hle, this]
    · have h1 : leftover.toNat = (leftover - 1).toNat + 1 := by omega
      rw [if_neg hle, h1, List.take_succ_cons, List.foldl_cons,
        ih (incrAt floors idx) (leftover - 1) (by omega)]

theorem sum_map_div_mul (l : List ℚ) (c N : ℚ) :
    (l.map (fun w => w / c * N)).sum = l.sum / c * N := by
  induction l with
  | nil => simp
  | cons a l ih =>
    simp only [List.map_cons, List.sum_cons, ih]
    ring

theorem floor_sum_le (raw : List ℚ) :
    (((raw.map (fun r => ⌊r⌋)).sum : ℤ) : ℚ) ≤ raw.sum := by
  induction raw with
  | nil => simp
  | cons r l ih =>
    simp only [List.map_cons, List.sum_cons]
    push_cast at ih ⊢
    exact add_le_add (Int.floor_le r) ih

theorem sum_le_floor_sum_add_length (raw : List ℚ) :
    raw.sum ≤ (((raw.map (fun r => ⌊r⌋)).sum : ℤ) : ℚ) + raw.length := by
  induction raw with
  | nil => simp
  | cons r l ih =>
    simp only [List.map_cons, List.sum_cons, List.length_cons]
    push_cast at ih ⊢
    have := Int.lt_floor_add_one r
    linarith

theorem sum_lt_floor_sum_add_length (raw : List ℚ) (h : raw ≠ []) :
    raw.sum < (((raw.map (fun r => ⌊r⌋)).sum : ℤ) : ℚ) + raw.length := by
  cases raw with
  | nil => exact absurd rfl h
  | cons r l =>
    have ihw := sum_le_floor_sum_add_length l
    simp only [List.map_cons, List.sum_cons, List.length_cons]
    push_cast at ihw ⊢
    have := Int.lt_floor_add_one r
    linarith

theorem list_sum_eq_range_sum (l : List ℤ) :
    l.sum = ∑ i ∈ Finset.range l.length, l.getD i 0 := by
  induction l with
  | nil => simp
  | cons a l ih =>
    rw [List.sum_cons, List.length_cons, Finset.sum_range_succ', ih]
    simp
    ring

theorem allocate_counts_eq (specs : List GeneratorSpec) (total : ℕ) :
    allocate_counts specs total =
      awardLoop (floorShares specs total) (awardOrder specs total)
        (leftoverOf specs total) := rfl

theorem rawShares_length (specs : List GeneratorSpec) (total : ℕ) :
    (rawShares specs total).length = specs.length := by
  simp [rawShares]

theorem floorShares_length (specs : List GeneratorSpec) (total : ℕ) :
    (floorShares specs total).length = specs.length := by
  simp [floorShares, rawShares]

theorem zip_map_floor_sub (l : List ℚ) :
    ((l.zip (l.map (fun r => ⌊r⌋))).map (fun p => p.1 - (p.2 : ℚ))) =
      l.map (fun r => r - (⌊r⌋ : ℚ)) := by
  induction l with
  | nil => rfl
  | cons a l ih => simp [ih]

theorem fracShares_eq_map (specs : List GeneratorSpec) (total : ℕ) :
    fracShares specs total =
      (rawShares specs total).map (fun r => r - (⌊r⌋ : ℚ)) :=
  zip_map_floor_sub (rawShares specs total)

theorem getD_map_of_lt {α β : Type} (f : α → β) (l : List α) (i : ℕ)
    (h : i < l.length) (d : α) (dm : β) :
    (l.map f).getD i dm = f (l.getD i d) := by
  induction l generalizing i with
  | nil => simp at h
  | cons a as ih =>
    cases i with
    | zero => rfl
    | succ n =>
      simp only [List.map_cons, List.getD_cons_succ]
      exact ih n (by simpa using h)

theorem floorShares_getD (specs : List GeneratorSpec) (total : ℕ) (i : ℕ)
    (h : i < specs.length) :
    (floorShares specs total).getD i 0 = ⌊(rawShares specs total).getD i 0⌋ := by
  rw [floorShares, getD_map_of_lt _ _ i (by rw [rawShares_length]; exact h) 0]

theorem fracShares_getD (specs : List GeneratorSpec) (total : ℕ) (i : ℕ)
    (h : i < specs.length) :
    (fracShares specs total).getD i 0 =
      Int.fract ((rawShares specs total).getD i 0) := by
  rw [fracShares_eq_map,
    getD_map_of_lt _ _ i (by rw [rawShares_length]; exact h) 0,
    Int.self_sub_floor]

theorem weight_sum_pos (specs : List GeneratorSpec) (hne : specs ≠ [])
    (hpos : ∀ s ∈ specs, 0 < s.weight) : 0 < (specs.map (·.weight)).sum := by
  cases specs with
  | nil => exact absurd rfl hne
  | cons a l =>
    simp only [List.map_cons, List.sum_cons]
    have h1 : 0 < a.weight := hpos a (List.mem_cons_self _ _)
    have h2 : 0 ≤ (l.map (·.weight)).sum := by
      apply List.sum_nonneg
      intro x hx
      obtain ⟨s, hs, rfl⟩ := List.mem_map.mp hx
      exact le_of_lt (hpos s (List.mem_cons_of_mem _ hs))
    linarith

theorem rawShares_eq_map_weights (specs : List GeneratorSpec) (total : ℕ) :
    rawShares specs total = (specs.map (·.weight)).map
      (fun w => w / (specs.map (·.weight)).sum * total) := by
  rw [List.map_map]
  rfl

theorem rawShares_sum (specs : List GeneratorSpec) (total : ℕ)
    (hW : (specs.map (·.weight)).sum ≠ 0) :
    (rawShares specs total).sum = total := by
  rw [rawShares_eq_map_weights, sum_map_div_mul, div_self hW, one_mul]

theorem getD_mem_of_lt {α : Type} (l : List α) (i : ℕ) (h : i < l.length)
    (d : α) : l.getD i d ∈ l := by
  rw [List.getD_eq_getElem _ _ h]
  exact List.getElem_mem h

theorem rawShares_getD_nonneg (specs : List GeneratorSpec) (total : ℕ) (i : ℕ)
    (hne : specs ≠ []) (hpos : ∀ s ∈ specs, 0 < s.weight)
    (h : i < specs.length) : 0 ≤ (rawShares specs total).getD i 0 := by
  rw [rawShares, getD_map_of_lt _ _ i h default]
  have hw : 0 < (specs.getD i default).weight :=
    hpos _ (getD_mem_of_lt specs i h default)
  have hW : 0 < (specs.map (·.weight)).sum := weight_sum_pos specs hne hpos
  positivity

theorem leftoverOf_nonneg (specs : List GeneratorSpec) (total : ℕ)
    (hne : specs ≠ []) (hpos : ∀ s ∈ specs, 0 < s.weight) :
    0 ≤ leftoverOf specs total := by
  have hW : (specs.map (·.weight)).sum ≠ 0 :=
    ne_of_gt (weight_sum_pos specs hne hpos)
  have h1 : (((floorShares specs total).sum : ℤ) : ℚ) ≤
      (rawShares specs total).sum := floor_sum_le (rawShares specs total)
  rw [rawShares_sum specs total hW] at h1
  have h2 : (floorShares specs total).sum ≤ (total : ℤ) := by exact_mod_cast h1
  unfold leftoverOf
  omega

theorem leftoverOf_lt (specs : List GeneratorSpec) (total : ℕ)
    (hne : specs ≠ []) (hpos : ∀ s ∈ specs, 0 < s.weight) :
    leftoverOf specs total < specs.length := by
  have hW : (specs.map (·.weight)).sum ≠ 0 :=
    ne_of_gt (weight_sum_pos specs hne hpos)
  have hraw_ne : rawShares specs total ≠ [] := by
    intro h
    have := rawShares_length specs total
    rw [h] at this
    cases specs with
    | nil => exact hne rfl
    | cons a l => simp at this
  have h1 := sum_lt_floor_sum_add_length (rawShares specs total) hraw_ne
  rw [rawShares_sum specs total hW, rawShares_length] at h1
  have h2 : (total : ℤ) < (floorShares specs total).sum + specs.length := by
    exact_mod_cast h1
  unfold leftoverOf
  omega

theorem floorShares_sum_eq (specs : List GeneratorSpec) (total : ℕ) :
    (floorShares specs total).sum =
      ∑ i ∈ Finset.range specs.length, ⌊(rawShares specs total).getD i 0⌋ := by
  rw [list_sum_eq_range_sum (floorShares specs total), floorShares_length]
  exact Finset.sum_congr rfl fun i hi =>
    floorShares_getD specs total i (Finset.mem_range.mp hi)

theorem awardOrder_perm (specs : List GeneratorSpec) (total : ℕ) :
    (awardOrder specs total).Perm (List.range specs.length) :=
  List.perm_insertionSort _ _

theorem awardOrder_nodup (specs : List GeneratorSpec) (total : ℕ) :
    (awardOrder specs total).Nodup :=
  ((awardOrder_perm specs total).nodup_iff).mpr (List.nodup_range _)

theorem awardOrder_mem (specs : List GeneratorSpec) (total : ℕ) (i : ℕ) :
    i ∈ awardOrder specs total ↔ i < specs.length := by
  rw [(awardOrder_perm specs total).mem_iff, List.mem_range]

theorem awardOrder_length (specs : List GeneratorSpec) (total : ℕ) :
    (awardOrder specs total).length = specs.length :=
  ((awardOrder_perm specs total).length_eq).trans (List.length_range _)

theorem awardOrder_sorted (specs : List GeneratorSpec) (total : ℕ) :
    List.Sorted (allocRel (fracShares specs total)) (awardOrder specs total) :=
  List.sorted_insertionSort _ _

theorem awardOrder_take_drop_rel (specs : List GeneratorSpec) (total : ℕ)
    (n : ℕ) (i j : ℕ) (hi : i ∈ (awardOrder specs total).take n)
    (hj : j ∈ (awardOrder specs total).drop n) :
    allocRel (fracShares specs total) i j := by
  have hs := awardOrder_sorted specs total
  rw [← List.take_append_drop n (awardOrder specs total)] at hs
  have hs2 : List.Pairwise (allocRel (fracShares specs total))
      ((awardOrder specs total).take n ++ (awardOrder specs total).drop n) := hs
  rw [List.pairwise_append] at hs2
  exact hs2.2.2 i hi j hj

/-- Full characterization of `_allocate_counts`: length, non-negativity,
exact sum, and the Hamilton largest-remainder shape — each count is the
floored proportional share plus at most one extra unit, and the extra units
go to a set `S` of exactly `remainder`-many indices that beats every
non-awarded index in (fractional part, original position) priority. -/
theorem allocate_counts_master (specs : List GeneratorSpec) (total : ℕ)
    (hne : specs ≠ []) (hpos : ∀ s ∈ specs, 0 < s.weight) :
    (allocate_counts specs total).length = specs.length ∧
    (∀ c ∈ allocate_counts specs total, 0 ≤ c) ∧
    (allocate_counts specs total).sum = total ∧
    ∃ S : Finset ℕ,
      (∀ i ∈ S, i < specs.length) ∧
      ((S.card : ℤ) = (total : ℤ) -
        ∑ i ∈ Finset.range specs.length, ⌊(rawShares specs total).getD i 0⌋) ∧
      (∀ i, i < specs.length →
        (allocate_counts specs total).getD i 0 =
          ⌊(rawShares specs total).getD i 0⌋ + (if i ∈ S then 1 else 0)) ∧
      (∀ i ∈ S, ∀ j, j < specs.length → j ∉ S →
        Int.fract ((rawShares specs total).getD j 0) <
            Int.fract ((rawShares specs total).getD i 0) ∨
          (Int.fract ((rawShares specs total).getD j 0) =
            Int.fract ((rawShares specs total).getD i 0) ∧ i < j)) := by
  have hW : (specs.map (·.weight)).sum ≠ 0 :=
    ne_of_gt (weight_sum_pos specs hne hpos)
  have hL0 : 0 ≤ leftoverOf specs total := leftoverOf_nonneg specs total hne hpos
  have hLk : leftoverOf specs total < specs.length :=
    leftoverOf_lt specs total hne hpos
  have hordlen : (awardOrder specs total).length = specs.length :=
    awardOrder_length specs total
  have hkey : allocate_counts specs total =
      ((awardOrder specs total).take (leftoverOf specs total).toNat).foldl
        incrAt (floorShares specs total) := by
    rw [allocate_counts_eq, awardLoop_eq_foldl _ _ _ hL0]
  set tk := (awardOrder specs total).take (leftoverOf specs total).toNat
    with htk
  have htksub : ∀ i ∈ tk, i ∈ awardOrder specs total := fun i hi =>
    List.mem_of_mem_take hi
  have hbound : ∀ i ∈ tk, i < (floorShares specs total).length := by
    intro i hi
    rw [floorShares_length]
    exact (awardOrder_mem specs total i).mp (htksub i hi)
  have hnd : tk.Nodup := (awardOrder_nodup specs total).sublist
    (List.take_sublist _ _)
  have htklen : tk.length = (leftoverOf specs total).toNat := by
    rw [htk, List.length_take, hordlen]
    omega
  have hlen : (allocate_counts specs total).length = specs.length := by
    rw [hkey, foldl_incrAt_length, floorShares_length]
  have hgetD : ∀ i, i < specs.length →
      (allocate_counts specs total).getD i 0 =
        ⌊(rawShares specs total).getD i 0⌋ + (if i ∈ tk then 1 else 0) := by
    intro i hi
    rw [hkey, foldl_incrAt_getD tk _ i hnd hbound, floorShares_getD _ _ _ hi]
  refine ⟨hlen, ?_, ?_, ?_⟩
  · intro c hc
    obtain ⟨i, hilt, hig⟩ := List.mem_iff_getElem.mp hc
    have hik : i < specs.length := by rwa [hlen] at hilt
    have hcg : c = (allocate_counts specs total).getD i 0 := by
      rw [List.getD_eq_getElem _ _ hilt, hig]
    rw [hcg, hgetD i hik]
    have h0 : 0 ≤ ⌊(rawShares specs total).getD i 0⌋ :=
      Int.floor_nonneg.mpr (rawShares_getD_nonneg specs total i hne hpos hik)
    split <;> omega
  · rw [hkey, foldl_incrAt_sum tk _ hbound, htklen]
    have hcast : ((leftoverOf specs total).toNat : ℤ) =
        leftoverOf specs total := Int.toNat_of_nonneg hL0
    rw [hcast]
    unfold leftoverOf
    ring
  · refine ⟨tk.toFinset, ?_, ?_, ?_, ?_⟩
    · intro i hi
      exact (awardOrder_mem specs total i).mp
        (htksub i (List.mem_toFinset.mp hi))
    · rw [List.toFinset_card_of_nodup hnd, htklen, ← floorShares_sum_eq]
      unfold leftoverOf at hL0 ⊢
      omega
    · intro i hi
      rw [hgetD i hi]
      simp [List.mem_toFinset]
    · intro i hiS j hjk hjS
      have hitk : i ∈ tk := List.mem_toFinset.mp hiS
      have hik : i < specs.length :=
        (awardOrder_mem specs total i).mp (htksub i hitk)
      have hjo : j ∈ awardOrder specs total :=
        (awardOrder_mem specs total j).mpr hjk
      have hjsplit : j ∈ tk ++ (awardOrder specs total).drop
          (leftoverOf specs total).toNat := by
        rw [htk, List.take_append_drop]
        exact hjo
      have hjdrop : j ∈ (awardOrder specs total).drop
          (leftoverOf specs total).toNat := by
        rcases List.mem_append.mp hjsplit with h | h
        · exact absurd (List.mem_toFinset.mpr h) hjS
        · exact h
      have hrel := awardOrder_take_drop_rel specs total
        (leftoverOf specs total).toNat i j hitk hjdrop
      have hij : i ≠ j := fun h => hjS (h ▸ hiS)
      rw [allocRel, fracShares_getD _ _ _ hik, fracShares_getD _ _ _ hjk]
        at hrel
      rcases hrel with h | ⟨h1, h2⟩
      · exact Or.inl h
      · exact Or.inr ⟨h1.symm, lt_of_le_of_ne h2 hij⟩


/-- Claim C1: for every non-empty spec list with positive weights and every
requested total `N ≥ 0`, `_allocate_counts` returns the Hamilton
largest-remainder apportionment — each count is the floor of the exact
proportional share `weight_i / Σweights * N` plus at most one extra unit;
the `N − Σfloors` extra units go one each to the specs winning the
largest-fractional-part comparison with ties broken by original spec order;
and the counts are non-negative and sum to exactly `N`. -/
theorem allocate_counts_hamilton (specs : List GeneratorSpec) (total : ℕ)
    (hne : specs ≠ []) (hpos : ∀ s ∈ specs, 0 < s.weight) :
    (allocate_counts specs total).length = specs.length ∧
    (∀ c ∈ allocate_counts specs total, 0 ≤ c) ∧
    (allocate_counts specs total).sum = total ∧
    ∃ S : Finset ℕ,
      (∀ i ∈ S, i < specs.length) ∧
      ((S.card : ℤ) = (total : ℤ) -
        ∑ i ∈ Finset.range specs.length, ⌊(rawShares specs total).getD i 0⌋) ∧
      (∀ i, i < specs.length →
        (allocate_counts specs total).getD i 0 =
          ⌊(rawShares specs total).getD i 0⌋ + (if i ∈ S then 1 else 0)) ∧
      (∀ i ∈ S, ∀ j, j < specs.length → j ∉ S →
        Int.fract ((rawShares specs total).getD j 0) <
            Int.fract ((rawShares specs total).getD i 0) ∨
          (Int.fract ((rawShares specs total).getD j 0) =
            Int.fract ((rawShares specs total).getD i 0) ∧ i < j)) :=
  allocate_counts_master specs total hne hpos

/-- Witness for C1 at the spec's scenario 1 input: two specs with weights
3 and 1 and `N = 8` (the allocation there is `[6, 2]`). -/
theorem allocate_counts_hamilton_witness :
    ([{ name := "post_similarity", weight := 3 },
      { name := "popularity", weight := 1 }] : List GeneratorSpec) ≠ [] ∧
    (∀ s ∈ ([{ name := "post_similarity", weight := 3 },
      { name := "popularity", weight := 1 }] : List GeneratorSpec),
        0 < s.weight) ∧
    ((allocate_counts [{ name := "post_similarity", weight := 3 },
      { name := "popularity", weight := 1 }] 8).sum = 8 ∧
     allocate_counts [{ name := "post_similarity", weight := 3 },
      { name := "popularity", weight := 1 }] 8 = [6, 2]) := by
  have hne : ([{ name := "post_similarity", weight := 3 },
      { name := "popularity", weight := 1 }] : List GeneratorSpec) ≠ [] := by
    simp
  have hpos : ∀ s ∈ ([{ name := "post_similarity", weight := 3 },
      { name := "popularity", weight := 1 }] : List GeneratorSpec),
      0 < s.weight := by
    intro s hs
    rcases List.mem_cons.mp hs with rfl | hs
    · norm_num
    · rcases List.mem_cons.mp hs with rfl | hs
      · norm_num
      · simp at hs
  refine ⟨hne, hpos, (allocate_counts_hamilton _ 8 hne hpos).2.2.1, ?_⟩
  norm_num [allocate_counts, List.insertionSort, List.orderedInsert,
    allocRel, awardLoop, incrAt]

/-- Claim C6: with equal positive weights the allocation splits `N` as
evenly as possible — any two allocated counts differ by at most 1
(`max − min ≤ 1`). -/
theorem allocate_counts_equal_weights_even (specs : List GeneratorSpec)
    (total : ℕ) (w : ℚ) (hne : specs ≠ []) (hw : 0 < w)
    (heqw : ∀ s ∈ specs, s.weight = w) :
    ∀ a ∈ allocate_counts specs total, ∀ b ∈ allocate_counts specs total,
      a - b ≤ 1 := by
  have hpos : ∀ s ∈ specs, 0 < s.weight := fun s hs => (heqw s hs) ▸ hw
  obtain ⟨hlen, _, _, S, _, _, hchar, _⟩ :=
    allocate_counts_master specs total hne hpos
  have hraw : ∀ i, i < specs.length →
      (rawShares specs total).getD i 0 =
        w / (specs.map (·.weight)).sum * total := by
    intro i h
    rw [rawShares, getD_map_of_lt _ _ i h default,
      heqw _ (getD_mem_of_lt specs i h default)]
  intro a ha b hb
  obtain ⟨i, hilt, hia⟩ := List.mem_iff_getElem.mp ha
  obtain ⟨j, hjlt, hjb⟩ := List.mem_iff_getElem.mp hb
  have hik : i < specs.length := by rwa [hlen] at hilt
  have hjk : j < specs.length := by rwa [hlen] at hjlt
  have hag : a = (allocate_counts specs total).getD i 0 := by
    rw [List.getD_eq_getElem _ _ hilt, hia]
  have hbg : b = (allocate_counts specs total).getD j 0 := by
    rw [List.getD_eq_getElem _ _ hjlt, hjb]
  rw [hag, hchar i hik, hbg, hchar j hjk, hraw i hik, hraw j hjk]
  split <;> split <;> omega

/-- Witness for C6: three equal-weight specs and `N = 5`
(the allocation there is `[2, 2, 1]`). -/
theorem allocate_counts_equal_weights_even_witness :
    ([{ name := "a" }, { name := "b" }, { name := "c" }] :
      List GeneratorSpec) ≠ [] ∧
    (0 : ℚ) < 1 ∧
    (∀ s ∈ ([{ name := "a" }, { name := "b" }, { name := "c" }] :
      List GeneratorSpec), s.weight = 1) ∧
    (∀ a ∈ allocate_counts
        [{ name := "a" }, { name := "b" }, { name := "c" }] 5,
      ∀ b ∈ allocate_counts
        [{ name := "a" }, { name := "b" }, { name := "c" }] 5,
      a - b ≤ 1) := by
  have hne : ([{ name := "a" }, { name := "b" }, { name := "c" }] :
      List GeneratorSpec) ≠ [] := by simp
  have hw : (0 : ℚ) < 1 := by norm_num
  have heqw : ∀ s ∈ ([{ name := "a" }, { name := "b" }, { name := "c" }] :
      List GeneratorSpec), s.weight = 1 := by
    intro s hs
    rcases List.mem_cons.mp hs with rfl | hs
    · rfl
    · rcases List.mem_cons.mp hs with rfl | hs
      · rfl
      · rcases List.mem_cons.mp hs with rfl | hs
        · rfl
        · simp at hs
  exact ⟨hne, hw, heqw,
    allocate_counts_equal_weights_even _ 5 1 hne hw heqw⟩


/-! ### Codec lemmas -/

theorem b64chars_length : b64chars.length = 64 := by decide

theorem b64char_ne_pad (n : ℕ) : b64char n ≠ Char.ofNat 61 := by
  by_cases h : n < 64
  · have hall : ∀ m : Fin 64, b64chars.getD (m : ℕ) (Char.ofNat 63) ≠
        Char.ofNat 61 := by decide
    exact hall ⟨n, h⟩
  · rw [b64char, List.getD_eq_default]
    · decide
    · rw [b64chars_length]
      omega

theorem b64val_b64char (n : ℕ) (h : n < 64) : b64val (b64char n) = some n := by
  have hall : ∀ m : Fin 64, b64val (b64char (m : ℕ)) = some (m : ℕ) := by
    decide
  exact hall ⟨n, h⟩

theorem b64_roundtrip : ∀ bs : List ℕ, (∀ b ∈ bs, b < 256) →
    b64decodeBytes (b64encodeBytes bs) = some bs
  | [], _ => rfl
  | [b1], h => by
    have hb1 : b1 < 256 := h b1 (by simp)
    have e1 : b64val (b64char (b1 / 4)) = some (b1 / 4) :=
      b64val_b64char _ (by omega)
    have e2 : b64val (b64char (b1 % 4 * 16)) = some (b1 % 4 * 16) :=
      b64val_b64char _ (by omega)
    rw [b64encodeBytes, b64decodeBytes, if_pos ⟨rfl, rfl, rfl⟩, e1, e2]
    show some [b1 / 4 * 4 + b1 % 4 * 16 / 16] = some [b1]
    have harith : b1 / 4 * 4 + b1 % 4 * 16 / 16 = b1 := by omega
    rw [harith]
  | [b1, b2], h => by
    have hb1 : b1 < 256 := h b1 (by simp)
    have hb2 : b2 < 256 := h b2 (by simp)
    have e1 : b64val (b64char (b1 / 4)) = some (b1 / 4) :=
      b64val_b64char _ (by omega)
    have e2 : b64val (b64char (b1 % 4 * 16 + b2 / 16)) =
        some (b1 % 4 * 16 + b2 / 16) := b64val_b64char _ (by omega)
    have e3 : b64val (b64char (b2 % 16 * 4)) = some (b2 % 16 * 4) :=
      b64val_b64char _ (by omega)
    rw [b64encodeBytes, b64decodeBytes,
      if_neg (fun hc => b64char_ne_pad (b2 % 16 * 4) hc.2.1),
      if_pos ⟨rfl, rfl⟩, e1, e2, e3]
    show some [b1 / 4 * 4 + (b1 % 4 * 16 + b2 / 16) / 16,
      (b1 % 4 * 16 + b2 / 16) % 16 * 16 + b2 % 16 * 4 / 4] = some [b1, b2]
    have h1 : b1 / 4 * 4 + (b1 % 4 * 16 + b2 / 16) / 16 = b1 := by omega
    have h2 : (b1 % 4 * 16 + b2 / 16) % 16 * 16 + b2 % 16 * 4 / 4 = b2 := by
      omega
    rw [h1, h2]
  | b1 :: b2 :: b3 :: rest, h => by
    have hb1 : b1 < 256 := h b1 (by simp)
    have hb2 : b2 < 256 := h b2 (by simp)
    have hb3 : b3 < 256 := h b3 (by simp)
    have e1 : b64val (b64char (b1 / 4)) = some (b1 / 4) :=
      b64val_b64char _ (by omega)
    have e2 : b64val (b64char (b1 % 4 * 16 + b2 / 16)) =
        some (b1 % 4 * 16 + b2 / 16) := b64val_b64char _ (by omega)
    have e3 : b64val (b64char (b2 % 16 * 4 + b3 / 64)) =
        some (b2 % 16 * 4 + b3 / 64) := b64val_b64char _ (by omega)
    have e4 : b64val (b64char (b3 % 64)) = some (b3 % 64) :=
      b64val_b64char _ (by omega)
    have ih := b64_roundtrip rest (fun b hb => h b (by simp [hb]))
    rw [b64encodeBytes, b64decodeBytes,
      if_neg (fun hc => b64char_ne_pad (b2 % 16 * 4 + b3 / 64) hc.2.1),
      if_neg (fun hc => b64char_ne_pad (b3 % 64) hc.2),
      e1, e2, e3, e4, ih]
    show some ((b1 / 4 * 4 + (b1 % 4 * 16 + b2 / 16) / 16) ::
      ((b1 % 4 * 16 + b2 / 16) % 16 * 16 + (b2 % 16 * 4 + b3 / 64) / 4) ::
      ((b2 % 16 * 4 + b3 / 64) % 4 * 64 + b3 % 64) :: rest) =
      some (b1 :: b2 :: b3 :: rest)
    have h1 : b1 / 4 * 4 + (b1 % 4 * 16 + b2 / 16) / 16 = b1 := by omega
    have h2 : (b1 % 4 * 16 + b2 / 16) % 16 * 16 +
        (b2 % 16 * 4 + b3 / 64) / 4 = b2 := by omega
    have h3 : (b2 % 16 * 4 + b3 / 64) % 4 * 64 + b3 % 64 = b3 := by omega
    rw [h1, h2, h3]

theorem wordToBytesLE_lt (w : ℕ) : ∀ b ∈ wordToBytesLE w, b < 256 := by
  intro b hb
  simp only [wordToBytesLE, List.mem_cons, List.not_mem_nil, or_false] at hb
  rcases hb with rfl | rfl | rfl | rfl <;> omega

theorem flatMap_wordToBytes_length (vec : List ℕ) :
    (vec.flatMap wordToBytesLE).length = 4 * vec.length := by
  induction vec with
  | nil => rfl
  | cons w vs ih =>
    simp only [List.flatMap_cons, List.length_append, ih, wordToBytesLE,
      List.length_cons, List.length_nil, List.length_cons]
    ring

theorem bytesToWords_flatMap : ∀ vec : List ℕ, (∀ w ∈ vec, w < 2 ^ 32) →
    bytesToWords (vec.flatMap wordToBytesLE) = some vec
  | [], _ => rfl
  | w :: vs, h => by
    have hw : w < 2 ^ 32 := h w (by simp)
    have ih := bytesToWords_flatMap vs (fun x hx => h x (by simp [hx]))
    show bytesToWords
        (w % 256 :: w / 256 % 256 :: w / 256 ^ 2 % 256 :: w / 256 ^ 3 % 256 ::
          vs.flatMap wordToBytesLE) = some (w :: vs)
    rw [bytesToWords, ih]
    show some (bytesToWordLE (w % 256) (w / 256 % 256) (w / 256 ^ 2 % 256)
      (w / 256 ^ 3 % 256) :: vs) = some (w :: vs)
    have harith : bytesToWordLE (w % 256) (w / 256 % 256) (w / 256 ^ 2 % 256)
        (w / 256 ^ 3 % 256) = w := by
      unfold bytesToWordLE
      omega
    rw [harith]

/-- Claim C5: for every float32 vector (any bit patterns, so zero, negative
and subnormal values included, as well as the empty vector),
`decode_float32_b64 (encode_float32_b64 v) = v`: the encoder packs each
value as 4 little-endian float32 bytes and base64-encodes the concatenation,
and the decoder inverts it exactly.  (Floats are modelled by their 32-bit
patterns, which is equality "to float32 precision"; the double→float32
rounding Python performs inside `struct.pack` is outside the model.) -/
theorem encode_decode_float32_roundtrip (vec : List ℕ)
    (h : ∀ w ∈ vec, w < 2 ^ 32) :
    decode_float32_b64 (encode_float32_b64 vec) = .ok vec := by
  have hbytes : ∀ b ∈ vec.flatMap wordToBytesLE, b < 256 := by
    intro b hb
    obtain ⟨w, _, hbw⟩ := List.mem_flatMap.mp hb
    exact wordToBytesLE_lt w b hbw
  have hlen : ¬((vec.flatMap wordToBytesLE).length % 4 ≠ 0) := by
    rw [flatMap_wordToBytes_length]
    omega
  unfold encode_float32_b64 decode_float32_b64
  show (match b64decodeBytes (b64encodeBytes (vec.flatMap wordToBytesLE)) with
    | none => Except.error "binascii.Error"
    | some raw =>
      if raw.length % 4 ≠ 0 then Except.error "invalid float32 byte length"
      else
        match bytesToWords raw with
        | some words => Except.ok words
        | none => Except.error "invalid float32 byte length") =
    Except.ok vec
  rw [b64_roundtrip _ hbytes]
  show (if (vec.flatMap wordToBytesLE).length % 4 ≠ 0 then
      Except.error "invalid float32 byte length"
    else
      match bytesToWords (vec.flatMap wordToBytesLE) with
      | some words => Except.ok words
      | none => Except.error "invalid float32 byte length") = Except.ok vec
  rw [if_neg hlen, bytesToWords_flatMap vec h]

/-- Witness for C5 at the spec's scenario 3 vector `[1.0, -2.5]`
(float32 bit patterns `0x3f800000` and `0xc0200000`). -/
theorem encode_decode_float32_roundtrip_witness :
    (∀ w ∈ [1065353216, 3223322624], w < 2 ^ 32) ∧
    decode_float32_b64 (encode_float32_b64 [1065353216, 3223322624]) =
      .ok [1065353216, 3223322624] :=
  ⟨by decide, encode_decode_float32_roundtrip _ (by decide)⟩


/-! ### Orchestrator lemmas -/

theorem genLoop_ok_of_resolved (reg : String → Option Gen) (user : String)
    (vo : Bool) :
    ∀ (pairs : List (GeneratorSpec × ℤ)) (acc : List CandidatePost)
      (tr : List Ev),
      (∀ p ∈ pairs, 0 < p.2 → (reg p.1.name).isSome) →
      ∃ out, genLoop reg user vo pairs acc tr =
        (.ok out, tr ++ (pairs.filter (fun p => decide (0 < p.2))).flatMap
          (fun p => [.lookup p.1.name, .invoke p.1.name p.2 vo]))
  | [], acc, tr, _ => ⟨acc, by simp [genLoop]⟩
  | (s, c) :: rest, acc, tr, hres => by
    rw [genLoop]
    by_cases hc : c ≤ 0
    · rw [if_pos hc]
      obtain ⟨out, hout⟩ := genLoop_ok_of_resolved reg user vo rest acc tr
        (fun p hp => hres p (List.mem_cons_of_mem _ hp))
      refine ⟨out, ?_⟩
      rw [hout]
      have hflt : ((s, c) :: rest).filter (fun p => decide (0 < p.2)) =
          rest.filter (fun p => decide (0 < p.2)) := by
        rw [List.filter_cons]
        simp [show ¬(0 < c) from by omega]
      rw [hflt]
    · rw [if_neg hc]
      have hpos : 0 < c := by omega
      have hsome := hres (s, c) (List.mem_cons_self _ _) hpos
      obtain ⟨g, hg⟩ := Option.isSome_iff_exists.mp hsome
      simp only [hg]
      obtain ⟨out, hout⟩ := genLoop_ok_of_resolved reg user vo rest
        (acc ++ g.run user c vo) (tr ++ [.lookup s.name, .invoke s.name c vo])
        (fun p hp => hres p (List.mem_cons_of_mem _ hp))
      refine ⟨out, ?_⟩
      rw [hout]
      have hflt : ((s, c) :: rest).filter (fun p => decide (0 < p.2)) =
          (s, c) :: rest.filter (fun p => decide (0 < p.2)) := by
        rw [List.filter_cons]
        simp [hpos]
      rw [hflt, List.flatMap_cons, List.append_assoc]

theorem genLoop_error_at_first_unresolved (reg : String → Option Gen)
    (user : String) (vo : Bool) :
    ∀ (pairs : List (GeneratorSpec × ℤ)) (acc : List CandidatePost)
      (tr : List Ev) (j : ℕ),
      j < pairs.length →
      0 < (pairs.getD j ((default : GeneratorSpec), 0)).2 →
      reg (pairs.getD j ((default : GeneratorSpec), 0)).1.name = none →
      (∀ i, i < j → 0 < (pairs.getD i ((default : GeneratorSpec), 0)).2 →
        (reg (pairs.getD i ((default : GeneratorSpec), 0)).1.name).isSome) →
      genLoop reg user vo pairs acc tr =
        (.error ⟨404, "Unknown generator: " ++
            (pairs.getD j ((default : GeneratorSpec), 0)).1.name⟩,
         tr ++ ((pairs.take j).filter (fun p => decide (0 < p.2))).flatMap
             (fun p => [.lookup p.1.name, .invoke p.1.name p.2 vo]) ++
           [.lookup (pairs.getD j ((default : GeneratorSpec), 0)).1.name])
  | [], _, _, j, hj, _, _, _ => by simp at hj
  | (s, c) :: rest, acc, tr, 0, hj, hcount, hnone, hbefore => by
    simp only [List.getD_cons_zero] at hcount hnone ⊢
    rw [genLoop, if_neg (by omega), hnone]
    simp
  | (s, c) :: rest, acc, tr, j + 1, hj, hcount, hnone, hbefore => by
    simp only [List.getD_cons_succ] at hcount hnone ⊢
    rw [genLoop]
    by_cases hc : c ≤ 0
    · rw [if_pos hc]
      rw [genLoop_error_at_first_unresolved reg user vo rest acc tr j
        (by simpa using hj) hcount hnone
        (fun i hi => by
          have := hbefore (i + 1) (by omega)
          simpa using this)]
      have hflt : (((s, c) :: rest).take (j + 1)).filter
          (fun p => decide (0 < p.2)) =
          (rest.take j).filter (fun p => decide (0 < p.2)) := by
        rw [List.take_succ_cons, List.filter_cons]
        simp [show ¬(0 < c) from by omega]
      rw [hflt]
    · rw [if_neg hc]
      have hpos : 0 < c := by omega
      have hsome : (reg s.name).isSome := by
        have := hbefore 0 (by omega)
        simpa using this hpos
      obtain ⟨g, hg⟩ := Option.isSome_iff_exists.mp hsome
      simp only [hg]
      rw [genLoop_error_at_first_unresolved reg user vo rest
        (acc ++ g.run user c vo)
        (tr ++ [Ev.lookup s.name, Ev.invoke s.name c vo])
        j (by simpa using hj) hcount hnone
        (fun i hi => by
          have := hbefore (i + 1) (by omega)
          simpa using this)]
      have hflt : (((s, c) :: rest).take (j + 1)).filter
          (fun p => decide (0 < p.2)) =
          (s, c) :: (rest.take j).filter (fun p => decide (0 < p.2)) := by
        rw [List.take_succ_cons, List.filter_cons]
        simp [hpos]
      rw [hflt, List.flatMap_cons]
      simp [List.append_assoc]


/-- Claim C3: infill control flow of `candidates_generate`.  Given the
primary loop's deduplicated output: if it already holds at least
`num_candidates` candidates, the response is its truncation and the trace is
unchanged — the infill generator is never looked up or invoked; if it falls
short and a (registered) infill name is supplied, the infill generator is
invoked exactly once with `2 × shortfall`, its output is appended after the
deduplicated list, deduplicated again, and truncated to `num_candidates`. -/
theorem infill_behavior (reg : String → Option Gen)
    (payload : CandidateGenerateRequest) (all : List CandidatePost)
    (tr : List Ev)
    (hloop : genLoop reg payload.user_did payload.video_only
      (payload.generators.zip
        (allocate_counts payload.generators payload.num_candidates)) [] [] =
      (.ok all, tr)) :
    (payload.num_candidates ≤ (dedup_candidates all).length →
      candidates_generate reg payload =
        (.ok ((dedup_candidates all).take payload.num_candidates), tr)) ∧
    (∀ nm g, payload.infill = some nm → reg nm = some g →
      (dedup_candidates all).length < payload.num_candidates →
      candidates_generate reg payload =
        (.ok ((dedup_candidates (dedup_candidates all ++
            g.run payload.user_did
              (((payload.num_candidates : ℤ) -
                (dedup_candidates all).length) * 2) payload.video_only)).take
          payload.num_candidates),
         tr ++ [Ev.lookup nm,
           Ev.invoke nm (((payload.num_candidates : ℤ) -
             (dedup_candidates all).length) * 2) payload.video_only])) := by
  constructor
  · intro hle
    have hsf : ¬(0 < (payload.num_candidates : ℤ) -
        (dedup_candidates all).length) := by
      have : ((payload.num_candidates : ℤ)) ≤ (dedup_candidates all).length :=
        by exact_mod_cast hle
      omega
    simp only [candidates_generate, hloop]
    cases hinf : payload.infill with
    | none => rfl
    | some nm => simp [hsf]
  · intro nm g hinf hreg hlt
    have hsf : 0 < (payload.num_candidates : ℤ) -
        (dedup_candidates all).length := by
      have : ((dedup_candidates all).length : ℤ) <
          (payload.num_candidates : ℤ) := by exact_mod_cast hlt
      omega
    simp only [candidates_generate, hloop, hinf, hreg]
    simp only [if_pos hsf]

/-- Witness for C3 at a concrete input: one generator `"p"` returning a
single candidate, `N = 3`, infill also `"p"`; the primary stage yields one
candidate, the shortfall is 2, and the infill is invoked once with count 4. -/
theorem infill_behavior_witness :
    (genLoop
        (fun n => if n = "p"
          then some (⟨fun _ _ _ => [{ at_uri := some "x" }]⟩ : Gen) else none)
        "u" false
        ((([{ name := "p" }] : List GeneratorSpec)).zip
          (allocate_counts [{ name := "p" }] 3)) [] [] =
      (.ok [{ at_uri := some "x" }],
        [Ev.lookup "p", Ev.invoke "p" 3 false])) ∧
    ({ generators := [{ name := "p" }], user_did := "u", num_candidates := 3,
        infill := some "p" } : CandidateGenerateRequest).infill = some "p" ∧
    (fun n => if n = "p"
      then some (⟨fun _ _ _ => [{ at_uri := some "x" }]⟩ : Gen) else none) "p" =
      some (⟨fun _ _ _ => [{ at_uri := some "x" }]⟩ : Gen) ∧
    (dedup_candidates [{ at_uri := some "x" }]).length < 3 ∧
    candidates_generate
      (fun n => if n = "p"
        then some (⟨fun _ _ _ => [{ at_uri := some "x" }]⟩ : Gen) else none)
      { generators := [{ name := "p" }], user_did := "u", num_candidates := 3,
        infill := some "p" } =
      (.ok [{ at_uri := some "x" }],
       [Ev.lookup "p", Ev.invoke "p" 3 false,
        Ev.lookup "p", Ev.invoke "p" 4 false]) := by
  have hcounts : allocate_counts [({ name := "p" } : GeneratorSpec)] 3 =
      [3] := by
    norm_num [allocate_counts, List.insertionSort, List.orderedInsert,
      allocRel, awardLoop, incrAt]
  have hloop : genLoop
      (fun n => if n = "p"
        then some (⟨fun _ _ _ => [{ at_uri := some "x" }]⟩ : Gen) else none)
      "u" false
      ((([{ name := "p" }] : List GeneratorSpec)).zip
        (allocate_counts [{ name := "p" }] 3)) [] [] =
      (.ok [{ at_uri := some "x" }],
        [Ev.lookup "p", Ev.invoke "p" 3 false]) := by
    rw [hcounts]
    simp [genLoop]
  have hlen : (dedup_candidates
      [({ at_uri := some "x" } : CandidatePost)]).length < 3 := by
    simp [dedup_candidates, dedupGo]
  refine ⟨hloop, rfl, rfl, hlen, ?_⟩
  have h := (infill_behavior
    (fun n => if n = "p"
      then some (⟨fun _ _ _ => [{ at_uri := some "x" }]⟩ : Gen) else none)
    { generators := [{ name := "p" }], user_did := "u", num_candidates := 3,
      infill := some "p" } [{ at_uri := some "x" }]
    [Ev.lookup "p", Ev.invoke "p" 3 false] hloop).2 "p"
    ⟨fun _ _ _ => [{ at_uri := some "x" }]⟩ rfl rfl hlen
  rw [h]
  simp [dedup_candidates, dedupGo]

/-- Claim C4 counterexample: registry holding only `popularity` (returning
one candidate); request lists `popularity` first and the unregistered
`bogus` second with equal weights and `N = 2`.  The request does abort with
a 404 NotFound and returns no candidates — but the trace shows the
`popularity` generator was looked up and invoked before the abort, refuting
"all names having been validated up front before any generator runs, so no
backend call is made for any generator in the request". -/
theorem unregistered_primary_counterexample :
    (candidates_generate
      (fun n => if n = "popularity"
        then some (⟨fun _ _ _ => [{ at_uri := some "at://p/1" }]⟩ : Gen) else none)
      { generators := [{ name := "popularity" }, { name := "bogus" }],
        user_did := "u", num_candidates := 2 }) =
      (.error ⟨404, "Unknown generator: bogus"⟩,
       [Ev.lookup "popularity", Ev.invoke "popularity" 1 false,
        Ev.lookup "bogus"]) ∧
    Ev.invoke "popularity" 1 false ∈
      (candidates_generate
        (fun n => if n = "popularity"
          then some (⟨fun _ _ _ => [{ at_uri := some "at://p/1" }]⟩ : Gen) else none)
        { generators := [{ name := "popularity" }, { name := "bogus" }],
          user_did := "u", num_candidates := 2 }).2 := by
  have hcounts : allocate_counts
      [({ name := "popularity" } : GeneratorSpec), { name := "bogus" }] 2 =
      [1, 1] := by
    norm_num [allocate_counts, List.insertionSort, List.orderedInsert,
      allocRel, awardLoop, incrAt]
  have hmain : candidates_generate
      (fun n => if n = "popularity"
        then some (⟨fun _ _ _ => [{ at_uri := some "at://p/1" }]⟩ : Gen) else none)
      { generators := [{ name := "popularity" }, { name := "bogus" }],
        user_did := "u", num_candidates := 2 } =
      (.error ⟨404, "Unknown generator: bogus"⟩,
       [Ev.lookup "popularity", Ev.invoke "popularity" 1 false,
        Ev.lookup "bogus"]) := by
    simp only [candidates_generate, hcounts]
    simp [genLoop]
  refine ⟨hmain, ?_⟩
  rw [hmain]
  simp

/-- Claim C4 (amended): `candidates_generate` resolves generator names
lazily, in spec order, while invoking them — not up front.  When some
positive-count spec names an unregistered generator, the request still
aborts with a 404 NotFound at the first such spec and no candidates are
returned, but the generators listed before it ARE invoked (their backend
work happens and is discarded): the trace is exactly the lookup/invoke
pairs of the earlier positive-count specs followed by the failing lookup,
so specs after the failing one are never resolved or invoked. -/
theorem unregistered_primary_aborts (reg : String → Option Gen)
    (payload : CandidateGenerateRequest)
    (pairs : List (GeneratorSpec × ℤ))
    (hpairs : pairs = payload.generators.zip
      (allocate_counts payload.generators payload.num_candidates))
    (j : ℕ) (hj : j < pairs.length)
    (hcount : 0 < (pairs.getD j ((default : GeneratorSpec), 0)).2)
    (hnone : reg (pairs.getD j ((default : GeneratorSpec), 0)).1.name = none)
    (hbefore : ∀ i, i < j →
      0 < (pairs.getD i ((default : GeneratorSpec), 0)).2 →
      (reg (pairs.getD i ((default : GeneratorSpec), 0)).1.name).isSome) :
    candidates_generate reg payload =
      (.error ⟨404, "Unknown generator: " ++
          (pairs.getD j ((default : GeneratorSpec), 0)).1.name⟩,
       ((pairs.take j).filter (fun p => decide (0 < p.2))).flatMap
           (fun p => [Ev.lookup p.1.name,
             Ev.invoke p.1.name p.2 payload.video_only]) ++
         [Ev.lookup (pairs.getD j ((default : GeneratorSpec), 0)).1.name]) := by
  have herr := genLoop_error_at_first_unresolved reg payload.user_did
    payload.video_only pairs [] [] j hj hcount hnone hbefore
  rw [hpairs] at herr
  simp only [candidates_generate, herr]
  rw [← hpairs]
  simp

/-- Witness for the amended C4 at the counterexample input (`j = 1`): the
request aborts with the 404 of `bogus` and the trace holds exactly the
invocation of `popularity` followed by the failing lookup. -/
theorem unregistered_primary_aborts_witness :
    (([({ name := "popularity" } : GeneratorSpec), { name := "bogus" }].zip
        (allocate_counts [{ name := "popularity" }, { name := "bogus" }] 2)) =
      [({ name := "popularity" }, 1), ({ name := "bogus" }, 1)]) ∧
    candidates_generate
      (fun n => if n = "popularity"
        then some (⟨fun _ _ _ => [{ at_uri := some "at://p/1" }]⟩ : Gen) else none)
      { generators := [{ name := "popularity" }, { name := "bogus" }],
        user_did := "u", num_candidates := 2 } =
      (.error ⟨404, "Unknown generator: bogus"⟩,
       [Ev.lookup "popularity", Ev.invoke "popularity" 1 false,
        Ev.lookup "bogus"]) := by
  have hcounts : allocate_counts
      [({ name := "popularity" } : GeneratorSpec), { name := "bogus" }] 2 =
      [1, 1] := by
    norm_num [allocate_counts, List.insertionSort, List.orderedInsert,
      allocRel, awardLoop, incrAt]
  have hzip : (([({ name := "popularity" } : GeneratorSpec),
      { name := "bogus" }].zip
        (allocate_counts [{ name := "popularity" }, { name := "bogus" }] 2)) =
      [({ name := "popularity" }, 1), ({ name := "bogus" }, 1)]) := by
    rw [hcounts]
    rfl
  refine ⟨hzip, ?_⟩
  have h := unregistered_primary_aborts
    (fun n => if n = "popularity"
      then some (⟨fun _ _ _ => [{ at_uri := some "at://p/1" }]⟩ : Gen) else none)
    { generators := [{ name := "popularity" }, { name := "bogus" }],
      user_did := "u", num_candidates := 2 }
    [({ name := "popularity" }, 1), ({ name := "bogus" }, 1)] hzip.symm
    1 (by simp) (by simp) (by simp)
    (by
      intro i hi _
      interval_cases i
      simp)
  rw [h]
  simp [List.filter, List.flatMap]

/-- Claim C10: a spec whose allocated count is not positive is skipped
before the registry lookup — so when every positive-count spec resolves and
no infill is requested, the request succeeds (no NotFound), even if some
zero-count spec names an unregistered generator; and every event in the
trace belongs to a positive-count spec, so a zero-count spec is neither
looked up nor invoked. -/
theorem zero_count_spec_skipped (reg : String → Option Gen)
    (payload : CandidateGenerateRequest)
    (pairs : List (GeneratorSpec × ℤ))
    (hpairs : pairs = payload.generators.zip
      (allocate_counts payload.generators payload.num_candidates))
    (hresolve : ∀ p ∈ pairs, 0 < p.2 → (reg p.1.name).isSome)
    (hinfill : payload.infill = none) :
    (∃ out, (candidates_generate reg payload).1 = .ok out) ∧
    (∀ e ∈ (candidates_generate reg payload).2,
      evName e ∈ (pairs.filter (fun p => decide (0 < p.2))).map
        (fun p => p.1.name)) := by
  obtain ⟨out, hout⟩ := genLoop_ok_of_resolved reg payload.user_did
    payload.video_only pairs [] [] hresolve
  rw [hpairs] at hout
  have hmain : candidates_generate reg payload =
      (.ok ((dedup_candidates out).take payload.num_candidates),
       (pairs.filter (fun p => decide (0 < p.2))).flatMap
         (fun p => [Ev.lookup p.1.name,
           Ev.invoke p.1.name p.2 payload.video_only])) := by
    simp only [candidates_generate, hout, hinfill]
    rw [← hpairs]
    simp
  rw [hmain]
  refine ⟨⟨_, rfl⟩, ?_⟩
  intro e he
  obtain ⟨p, hp, hep⟩ := List.mem_flatMap.mp he
  rcases List.mem_cons.mp hep with rfl | hep
  · exact List.mem_map.mpr ⟨p, hp, rfl⟩
  · rcases List.mem_cons.mp hep with rfl | hep
    · exact List.mem_map.mpr ⟨p, hp, rfl⟩
    · simp at hep

/-- Witness for C10: registry holding only `popularity`; the request lists
`popularity` with weight 100 and the unregistered `bogus` with weight 1 and
asks for 4 candidates, so the allocation is `[4, 0]`; the request succeeds
and only `popularity` appears in the trace. -/
theorem zero_count_spec_skipped_witness :
    (([({ name := "popularity", weight := 100 } : GeneratorSpec),
        { name := "bogus", weight := 1 }].zip
      (allocate_counts [{ name := "popularity", weight := 100 },
        { name := "bogus", weight := 1 }] 4)) =
      [({ name := "popularity", weight := 100 }, 4),
       ({ name := "bogus", weight := 1 }, 0)]) ∧
    (∃ out, (candidates_generate
      (fun n => if n = "popularity"
        then some (⟨fun _ _ _ => [{ at_uri := some "at://p/1" }]⟩ : Gen) else none)
      { generators := [{ name := "popularity", weight := 100 },
          { name := "bogus", weight := 1 }],
        user_did := "u", num_candidates := 4 }).1 = .ok out) ∧
    (∀ e ∈ (candidates_generate
      (fun n => if n = "popularity"
        then some (⟨fun _ _ _ => [{ at_uri := some "at://p/1" }]⟩ : Gen) else none)
      { generators := [{ name := "popularity", weight := 100 },
          { name := "bogus", weight := 1 }],
        user_did := "u", num_candidates := 4 }).2,
      evName e ∈ ["popularity"]) := by
  have hcounts : allocate_counts
      [({ name := "popularity", weight := 100 } : GeneratorSpec),
       { name := "bogus", weight := 1 }] 4 = [4, 0] := by
    norm_num [allocate_counts, List.insertionSort, List.orderedInsert,
      allocRel, awardLoop, incrAt]
  have hzip : (([({ name := "popularity", weight := 100 } : GeneratorSpec),
      { name := "bogus", weight := 1 }].zip
      (allocate_counts [{ name := "popularity", weight := 100 },
        { name := "bogus", weight := 1 }] 4)) =
      [({ name := "popularity", weight := 100 }, 4),
       ({ name := "bogus", weight := 1 }, 0)]) := by
    rw [hcounts]
    rfl
  have hresolve : ∀ p ∈ [(({ name := "popularity", weight := 100 } :
      GeneratorSpec), (4 : ℤ)), ({ name := "bogus", weight := 1 }, 0)],
      0 < p.2 → ((fun n => if n = "popularity"
        then some (⟨fun _ _ _ => [{ at_uri := some "at://p/1" }]⟩ : Gen)
        else none) p.1.name).isSome := by
    intro p hp hpos
    rcases List.mem_cons.mp hp with rfl | hp
    · simp
    · rcases List.mem_cons.mp hp with rfl | hp
      · norm_num at hpos
      · simp at hp
  have h := zero_count_spec_skipped
    (fun n => if n = "popularity"
      then some (⟨fun _ _ _ => [{ at_uri := some "at://p/1" }]⟩ : Gen) else none)
    { generators := [{ name := "popularity", weight := 100 },
        { name := "bogus", weight := 1 }],
      user_did := "u", num_candidates := 4 }
    [({ name := "popularity", weight := 100 }, 4),
     ({ name := "bogus", weight := 1 }, 0)] hzip.symm hresolve rfl
  refine ⟨hzip, h.1, ?_⟩
  intro e he
  have h2 := h.2 e he
  simpa [List.filter] using h2


/-! ### Pipeline lemmas -/

theorem foldlM_addInto_ne_empty_error :
    ∀ (l : List (List ℚ)) (init : List ℚ),
      l.foldlM addInto init ≠ .error PyErr.valueErrorNoVectors
  | [], init => by
    show ¬(Except.ok init = Except.error PyErr.valueErrorNoVectors)
    simp
  | v :: vs, init => by
    rw [List.foldlM_cons]
    unfold addInto
    split
    · show ¬((Except.ok _ : Except PyErr (List ℚ)) >>= _ = _)
      show ¬(vs.foldlM addInto _ = _)
      exact foldlM_addInto_ne_empty_error vs _
    · show ¬((Except.error PyErr.indexError :
        Except PyErr (List ℚ)) >>= _ = _)
      show ¬((Except.error PyErr.indexError : Except PyErr (List ℚ)) = _)
      simp

theorem average_vectors_ne_empty_error (vectors : List (List ℚ))
    (h : vectors ≠ []) :
    average_vectors vectors ≠ .error PyErr.valueErrorNoVectors := by
  unfold average_vectors
  rw [if_neg h]
  cases hF : vectors.foldlM addInto
      (List.replicate (vectors.headD []).length (0 : ℚ)) with
  | error e =>
    have hne := foldlM_addInto_ne_empty_error vectors
      (List.replicate (vectors.headD []).length (0 : ℚ))
    rw [hF] at hne
    have he : e ≠ PyErr.valueErrorNoVectors := fun hc => hne (by rw [hc])
    simp [he]
  | ok avg => simp

/-- Claim C7: the similarity pipeline short-circuits on emptiness.  If the
likes lookup returns zero records, `generate` returns an empty result after
only the likes call (no embedding lookup, no kNN); if the embedding
resolution yields zero vectors, it returns an empty result after the likes
and embedding calls (no kNN); and consequently the empty-input
`ValueError` branch of `average_vectors` is unreachable from `generate`. -/
theorem post_similarity_early_returns (es : Es) (enc : List ℚ → String)
    (user : String) (n : ℤ) :
    (es (likesCall user DEFAULT_LIKED_POSTS_LIMIT) = [] →
      post_similarity_generate es enc user n =
        (.ok { generator_name := "post_similarity", candidates := [] },
         [likesCall user DEFAULT_LIKED_POSTS_LIMIT])) ∧
    (fetch_recent_liked_post_uris es user ≠ [] →
      fetch_post_embeddings es (fetch_recent_liked_post_uris es user) = [] →
      post_similarity_generate es enc user n =
        (.ok { generator_name := "post_similarity", candidates := [] },
         [likesCall user DEFAULT_LIKED_POSTS_LIMIT,
          embCall (fetch_recent_liked_post_uris es user)])) ∧
    (post_similarity_generate es enc user n).1 ≠
      .error PyErr.valueErrorNoVectors := by
  refine ⟨?_, ?_, ?_⟩
  · intro hlikes
    have huris : fetch_recent_liked_post_uris es user = [] := by
      unfold fetch_recent_liked_post_uris
      rw [hlikes]
      rfl
    unfold post_similarity_generate
    rw [if_pos huris]
  · intro huris hvec
    unfold post_similarity_generate
    rw [if_neg huris, if_pos hvec]
  · unfold post_similarity_generate
    by_cases huris : fetch_recent_liked_post_uris es user = []
    · rw [if_pos huris]
      simp
    · rw [if_neg huris]
      by_cases hvec :
          fetch_post_embeddings es (fetch_recent_liked_post_uris es user) = []
      · rw [if_pos hvec]
        simp
      · rw [if_neg hvec]
        cases havg : average_vectors
            (fetch_post_embeddings es (fetch_recent_liked_post_uris es user))
            with
        | error e =>
          have hne := average_vectors_ne_empty_error _ hvec
          rw [havg] at hne
          have : e ≠ PyErr.valueErrorNoVectors := fun hc => hne (by rw [hc])
          simp [this]
        | ok avg => simp

/-- Witness for C7: a backend with no records at all (likes-empty case), and
a backend holding one like whose post has no embedding (vectors-empty
case). -/
theorem post_similarity_early_returns_witness :
    ((fun _ => []) (likesCall "u" DEFAULT_LIKED_POSTS_LIMIT) =
      ([] : List Hit) ∧
     post_similarity_generate (fun _ => []) (fun _ => "") "u" 5 =
      (.ok { generator_name := "post_similarity", candidates := [] },
       [likesCall "u" DEFAULT_LIKED_POSTS_LIMIT])) ∧
    (fetch_recent_liked_post_uris
        (fun c => if c.index = "likes"
          then [{ src := some { subject_uri := some "at://1" } }] else [])
        "u" ≠ [] ∧
     post_similarity_generate
        (fun c => if c.index = "likes"
          then [{ src := some { subject_uri := some "at://1" } }] else [])
        (fun _ => "") "u" 5 =
      (.ok { generator_name := "post_similarity", candidates := [] },
       [likesCall "u" DEFAULT_LIKED_POSTS_LIMIT, embCall ["at://1"]])) ∧
    (post_similarity_generate (fun _ => []) (fun _ => "") "u" 5).1 ≠
      .error PyErr.valueErrorNoVectors := by
  have huris : fetch_recent_liked_post_uris
      (fun c => if c.index = "likes"
        then [{ src := some { subject_uri := some "at://1" } }] else [])
      "u" = ["at://1"] := by
    unfold fetch_recent_liked_post_uris likesCall
    simp [List.filterMap]
  have hvec : fetch_post_embeddings
      (fun c => if c.index = "likes"
        then [{ src := some { subject_uri := some "at://1" } }] else [])
      ["at://1"] = [] := by
    unfold fetch_post_embeddings embCall
    simp [List.filterMap]
  refine ⟨⟨rfl, (post_similarity_early_returns (fun _ => []) (fun _ => "")
    "u" 5).1 rfl⟩, ⟨by rw [huris]; simp, ?_⟩,
    (post_similarity_early_returns (fun _ => []) (fun _ => "") "u" 5).2.2⟩
  have h2 := (post_similarity_early_returns
    (fun c => if c.index = "likes"
      then [{ src := some { subject_uri := some "at://1" } }] else [])
    (fun _ => "") "u" 5).2.1 (by rw [huris]; simp) (by rw [huris]; exact hvec)
  rw [huris] at h2
  exact h2

/-- Claim C8 (code behavior): the kNN query of `knn_search_posts` requests
`k = count` results with an examined pool of `max(100, count × 10)`
candidates and `size = count` — those parts of the claim hold — but the
`contains_video` filter is present for EVERY count: the function takes no
`video_only` parameter at all (and neither does
`PostSimilarityCandidateGenerator.generate`, see the Lean signatures of
`knn_search_posts` and `post_similarity_generate`), so the query is never
the unfiltered form the repo's own tests demand for `video_only=False`. -/
theorem knn_query_always_video_filtered (qv : List ℚ) (n : ℤ) :
    (knnCall qv n).size = n ∧
    knnQuery qv n = .obj [("bool", .obj [
      ("must", .obj [("knn", .obj [
        ("field", .str "embeddings.all_MiniLM_L12_v2"),
        ("query_vector", .arr (qv.map .num)),
        ("k", .num n),
        ("num_candidates", .num (max 100 (n * 10)))])]),
      ("filter", .arr [.obj [("term",
        .obj [("contains_video", .jbool true)])]])])] ∧
    knnQuery qv n ≠ .obj [("bool", .obj [
      ("must", .obj [("knn", .obj [
        ("field", .str "embeddings.all_MiniLM_L12_v2"),
        ("query_vector", .arr (qv.map .num)),
        ("k", .num n),
        ("num_candidates", .num (max 100 (n * 10)))])]),
      ("filter", .arr [])])] := by
  refine ⟨rfl, rfl, fun hc => ?_⟩
  have hproj := congrArg (fun j => match j with
    | Json.obj [(_, Json.obj [_, (_, f)])] => f
    | _ => Json.arr []) hc
  simp only [knnQuery] at hproj
  simp at hproj

/-- Claim C9: the popularity generator is user-blind — for any two user
identifiers and the same backend oracle, encoder, count and `video_only`
flag, `PopularityCandidateGenerator.generate` returns identical results and
performs identical backend calls (`user_did` is bound but never read). -/
theorem popularity_user_noninterference (es : Es) (enc : List ℚ → String)
    (u1 u2 : String) (n : ℤ) (vo : Bool) :
    popularity_generate es enc u1 n vo = popularity_generate es enc u2 n vo :=
  rfl

end GreenEarth
